import Mathlib

/-! # Shallow embedding of parse-utils (src/index.js)

This file models the algorithmic core of the parse-utils library:
findAll (paged retrieval), deleteAllByQuery (bounded-round delete
convergence loop), saveAllInChunks (chunked bulk save) and the schema
reconciliation of loadClassesFromSchemas (loadClass / getSchemaChanges).

The external Parse backend is modelled by an explicit record store: a query
is carried together with the ordered list of records matching its predicate
(the store); Query.find returns the skip/limit window of that list and
Query.count its length.  The Parse SDK query builders skip and limit mutate
the query object in place and return it, so the query state is threaded
explicitly, and the state of the caller's query object after a run is
exposed (finalQuery).  JS numbers are modelled as Nat (all counts involved
are small non-negative integers; Math.ceil of the division a / b is
ceilDiv a b). -/

namespace ParseUtils

/-- Ceiling division on naturals, modelling Math.ceil of a / b. -/
def ceilDiv (a b : Nat) : Nat := (a + b - 1) / b

/-- The Parse page-size cap used by findAll (PAGE_SIZE in the source). -/
def PAGE_SIZE : Nat := 500

/-- Pagination state of a Parse.Query object: the skip offset and the
optional limit (none when no limit was ever set on the query; the server
default of 100 then applies to find). -/
structure Query where
  skip : Nat
  limit : Option Nat
deriving DecidableEq

/-- Parse.Query.skip builder: sets the skip field of the query object in
place and returns the same object. -/
def Query.setSkip (q : Query) (n : Nat) : Query := { q with skip := n }

/-- Parse.Query.limit builder: sets the limit field of the query object in
place and returns the same object. -/
def Query.setLimit (q : Query) (n : Nat) : Query := { q with limit := some n }

/-- Backend model of Query.find: the store is the ordered list of records
matching the query's predicate; find returns its skip/limit window. -/
def Query.find {α : Type} (q : Query) (store : List α) : List α :=
  (store.drop q.skip).take (q.limit.getD 100)

/-- Backend model of Query.count: the number of matching records
(count ignores skip and limit). -/
def Query.count {α : Type} (_q : Query) (store : List α) : Nat := store.length

/-- Result of a findAll run: the page queries issued (the state of the
query object at each find call, in page-index order), the flattened
records, and the state of the caller's query object after the run. -/
structure FindAllResult (α : Type) where
  pageRequests : List Query
  results : List α
  finalQuery : Query

/-- The pages.map loop of findAll: for each page index the shared query
object is mutated to skip = page * PAGE_SIZE and limit = PAGE_SIZE, and a
find is issued with that state.  Returns the issued query states in page
order together with the final state of the query object. -/
def issuePages (q : Query) : List Nat → List Query × Query
  | [] => ([], q)
  | p :: ps =>
    let q1 := (q.setSkip (p * PAGE_SIZE)).setLimit PAGE_SIZE
    let r := issuePages q1 ps
    (q1 :: r.1, r.2)

/-- findAll (src/index.js lines 161-174): count the matches, compute
ceil(count / PAGE_SIZE) page indices, issue one bounded find per page
index on the (mutated) caller query, and flatten the page results in
page-index order. -/
def findAll {α : Type} (parseQuery : Query) (store : List α) : FindAllResult α :=
  let count := parseQuery.count store
  let pagesCount := ceilDiv count PAGE_SIZE
  let pages := List.range pagesCount
  let r := issuePages parseQuery pages
  { pageRequests := r.1
    results := (r.1.map (fun q => q.find store)).flatten
    finalQuery := r.2 }

/-- Result of a deleteAllByQuery run: total number of rounds (including
the final round that deletes nothing), number of rounds that deleted a
non-zero batch, the remaining store, and the JS value the returned promise
resolves with (none models the undefined produced by Parse.Promise.as with
no argument; some would model resolving with a list of records). -/
structure DeleteAllResult (α : Type) where
  totalRounds : Nat
  deletingRounds : Nat
  finalStore : List α
  resolvedValue : Option (List α)

/-- The recursion of _destroyAll with _deleteChunk (src/index.js lines
187-196): fetch one window of the bounded query, destroy the fetched
records (they disappear from the store, which closes up around them),
recurse while the deleted count is non-zero, and resolve with undefined
once a round deletes nothing. -/
def _destroyAll {α : Type} (q : Query) (store : List α) : DeleteAllResult α :=
  if h : (q.find store).length = 0 then
    { totalRounds := 1, deletingRounds := 0, finalStore := store, resolvedValue := none }
  else
    let r := _destroyAll q (store.take q.skip ++ store.drop (q.skip + (q.find store).length))
    { totalRounds := r.totalRounds + 1
      deletingRounds := r.deletingRounds + 1
      finalStore := r.finalStore
      resolvedValue := r.resolvedValue }
termination_by store.length
decreasing_by
  have hc : (q.find store).length ≤ store.length - q.skip := by
    simp only [Query.find, List.length_take, List.length_drop]
    exact Nat.min_le_right _ _
  have hpos : 0 < (q.find store).length := Nat.pos_of_ne_zero h
  have hsk : q.skip ≤ store.length := by omega
  simp only [List.length_append, List.length_take, List.length_drop]
  rw [Nat.min_eq_left hsk]
  omega

/-- deleteAllByQuery (src/index.js lines 183-185): bound the caller's
filter to limit 500 once, then run the convergence loop on that same
bounded filter. -/
def deleteAllByQuery {α : Type} (parseQuery : Query) (store : List α) :
    DeleteAllResult α :=
  _destroyAll (parseQuery.setLimit 500) store

/-- lodash chunk: successive slices of the given size (the last one may be
shorter); size 0 yields no chunks. -/
def lchunk {α : Type} (size : Nat) : List α → List (List α)
  | [] => []
  | x :: xs =>
    if h : size = 0 then []
    else (x :: xs).take size :: lchunk size ((x :: xs).drop size)
termination_by l => l.length
decreasing_by
  simp only [List.length_drop, List.length_cons]
  omega

/-- JS a || b applied to an optional number: undefined and 0 are falsy. -/
def jsOr (v : Option Nat) (d : Nat) : Nat :=
  match v with
  | none => d
  | some 0 => d
  | some (n + 1) => n + 1

/-- The for-of loop of saveAllInChunks: each chunk is passed to the
saveAll primitive and its result batch pushed; the backend state is
threaded so that every call starts only after the previous call has
completed. -/
def saveLoop {σ α β : Type} (saveAll : σ → List α → σ × List β) :
    σ → List (List α) → σ × List (List β)
  | s, [] => (s, [])
  | s, c :: cs =>
    let p := saveAll s c
    let r := saveLoop saveAll p.1 cs
    (r.1, p.2 :: r.2)

/-- saveAllInChunks (src/index.js lines 206-214): split the input into
chunks of (chunkSize || 200) records and save the chunks sequentially,
collecting one result batch per chunk in chunk order. -/
def saveAllInChunks {σ α β : Type} (saveAll : σ → List α → σ × List β)
    (s0 : σ) (parseObjects : List α) (chunkSize : Option Nat) :
    σ × List (List β) :=
  saveLoop saveAll s0 (lchunk (jsOr chunkSize 200) parseObjects)

/-- A monitoring saveAll primitive: it records each call (in call order)
in its state and returns the per-record results of the batch. -/
def logSave {α β : Type} (g : α → β) :
    List (List α) → List α → List (List α) × List β :=
  fun s c => (s ++ [c], c.map g)

/-- lodash difference: the elements of a that do not occur in b. -/
def difference {γ : Type} [DecidableEq γ] (a b : List γ) : List γ :=
  a.filter (fun x => decide (x ∉ b))

/-- Object.keys of a schema, modelled as an association list from field
name to field descriptor. -/
def keysOf {D : Type} (s : List (String × D)) : List String := s.map Prod.fst

/-- The patch operation tag (the __op value in the source). -/
inductive PatchDir : Type
  | Insert
  | Delete
deriving DecidableEq

/-- One schema-patch entry: the spread of the source descriptor (none when
the field had no descriptor to spread) tagged with its __op. -/
structure PatchEntry (D : Type) where
  desc : Option D
  op : PatchDir
deriving DecidableEq

/-- IGNORED_FIELDS (src/index.js lines 292-294): the system fields for
every class except the built-in user class, which additionally protects
its account fields. -/
def IGNORED_FIELDS (className : String) : List String :=
  if className ≠ "_User" then ["objectId", "createdAt", "updatedAt", "ACL"]
  else ["objectId", "createdAt", "updatedAt", "ACL", "emailVerified", "authData",
        "username", "password", "email"]

/-- The deletedFields of getSchemaChanges: remote keys minus (desired keys
concatenated with the ignore-list). -/
def deletedFields {D : Type} (className : String)
    (classSchema remoteSchema : List (String × D)) : List String :=
  difference (keysOf remoteSchema) (keysOf classSchema ++ IGNORED_FIELDS className)

/-- The newFields of getSchemaChanges: (desired keys concatenated with the
ignore-list) minus remote keys. -/
def newFields {D : Type} (className : String)
    (classSchema remoteSchema : List (String × D)) : List String :=
  difference (keysOf classSchema ++ IGNORED_FIELDS className) (keysOf remoteSchema)

/-- JS object property assignment on an object modelled as its lookup
function. -/
def assign {β : Type} (m : String → Option β) (k : String) (v : β) :
    String → Option β :=
  fun x => if x = k then some v else m x

/-- getSchemaChanges (src/index.js lines 291-307): build the patch object
by assigning a Delete-tagged spread of the remote descriptor for every
deleted field and then an Insert-tagged spread of the desired descriptor
for every new field. -/
def getSchemaChanges {D : Type} (className : String)
    (classSchema remoteSchema : List (String × D)) :
    String → Option (PatchEntry D) :=
  let m1 := (deletedFields className classSchema remoteSchema).foldl
    (fun m f => assign m f ⟨List.lookup f remoteSchema, PatchDir.Delete⟩)
    (fun _ => none)
  (newFields className classSchema remoteSchema).foldl
    (fun m f => assign m f ⟨List.lookup f classSchema, PatchDir.Insert⟩) m1

/-- Modelled from the spec: the backend's application of a schema patch
(the updateClass effect, which lives in parse-server, outside this
repository).  Fields tagged with a delete operation are removed from the
remote schema and fields tagged with an insert operation are added with
their desired descriptor; d0 stands for the descriptor the backend creates
for an inserted entry whose spread source was absent. -/
def applyPatch {D : Type} (className : String)
    (classSchema remoteSchema : List (String × D)) (d0 : D) :
    List (String × D) :=
  remoteSchema.filter
      (fun e => decide (e.1 ∉ deletedFields className classSchema remoteSchema))
    ++ (newFields className classSchema remoteSchema).map
        (fun f => (f, (List.lookup f classSchema).getD d0))

/-- The empty JS object passed as the schema argument of the
permissions-only updateClass call. -/
def emptyPatch {D : Type} : String → Option (PatchEntry D) := fun _ => none

/-- One call issued against the parse-server schema API. -/
inductive SchemaCall (D P : Type) : Type
  | addClass (className : String) (schema : List (String × D))
  | updateClass (className : String) (patch : String → Option (PatchEntry D))
      (permissions : P)

/-- Recognizer for updateClass calls. -/
def isUpdateClassCall {D P : Type} : SchemaCall D P → Bool
  | .updateClass _ _ _ => true
  | _ => false

/-- loadClass (src/index.js lines 275-289).  The outcomes of the backend
calls (addClassIfNotExists, the permissions-only updateClass inside the
try block, and the patching updateClass) are inputs of the model: ok, or
an error carrying a numeric code.  The result is the list of calls issued,
in order, together with the class's reconciliation outcome (ok, or a
propagated error code). -/
def loadClass {D P : Type} (createRes updatePermsRes updatePatchRes : Except Nat Unit)
    (shouldUpdate : Bool) (className : String)
    (classSchema remoteData : List (String × D)) (classPermissions : P) :
    List (SchemaCall D P) × Except Nat Unit :=
  match createRes with
  | .ok _ =>
    match updatePermsRes with
    | .ok _ =>
      ([SchemaCall.addClass className classSchema,
        SchemaCall.updateClass className emptyPatch classPermissions], .ok ())
    | .error e =>
      if e = 103 then
        if shouldUpdate then
          ([SchemaCall.addClass className classSchema,
            SchemaCall.updateClass className emptyPatch classPermissions,
            SchemaCall.updateClass className
              (getSchemaChanges className classSchema remoteData) classPermissions],
           updatePatchRes)
        else
          ([SchemaCall.addClass className classSchema,
            SchemaCall.updateClass className emptyPatch classPermissions], .ok ())
      else
        ([SchemaCall.addClass className classSchema,
          SchemaCall.updateClass className emptyPatch classPermissions], .error e)
  | .error e =>
    if e = 103 then
      if shouldUpdate then
        ([SchemaCall.addClass className classSchema,
          SchemaCall.updateClass className
            (getSchemaChanges className classSchema remoteData) classPermissions],
         updatePatchRes)
      else
        ([SchemaCall.addClass className classSchema], .ok ())
    else
      ([SchemaCall.addClass className classSchema], .error e)

/-- Per-class inputs of one loadClassesFromSchemas batch entry. -/
structure ClassJob (D P : Type) where
  createRes : Except Nat Unit
  updatePermsRes : Except Nat Unit
  updatePatchRes : Except Nat Unit
  name : String
  schema : List (String × D)
  remoteData : List (String × D)
  permissions : P

/-- loadClassesFromSchemas (src/index.js lines 271-310): every class of
the batch is reconciled independently by its own loadClass run (the runs
are joined by a Promise.all). -/
def loadClassesFromSchemas {D P : Type} (shouldUpdate : Bool)
    (jobs : List (ClassJob D P)) : List (List (SchemaCall D P) × Except Nat Unit) :=
  jobs.map (fun j =>
    loadClass j.createRes j.updatePermsRes j.updatePatchRes shouldUpdate
      j.name j.schema j.remoteData j.permissions)

/-! ## Arithmetic helpers -/

theorem ceilDiv_sub (P m : Nat) (hP : 0 < P) (hm : 1 ≤ m) :
    ceilDiv m P = ceilDiv (m - P) P + 1 := by
  rcases Nat.le_total m P with hmp | hmp
  · have h0 : m - P = 0 := by omega
    have h2 : (m + P - 1) / P = (m - 1) / P + 1 := by
      have h1 : m + P - 1 = (m - 1) + P := by omega
      rw [h1, Nat.add_div_right _ hP]
    have h3 : (m - 1) / P = 0 := Nat.div_eq_of_lt (by omega)
    have h4 : (0 + P - 1) / P = 0 := Nat.div_eq_of_lt (by omega)
    unfold ceilDiv
    rw [h0]
    omega
  · have h1 : m + P - 1 = ((m - P) + P - 1) + P := by omega
    unfold ceilDiv
    rw [h1, Nat.add_div_right _ hP]

theorem ceilDiv_zero_left (P : Nat) (hP : 0 < P) : ceilDiv 0 P = 0 := by
  unfold ceilDiv
  exact Nat.div_eq_of_lt (by omega)

theorem eq_zero_of_ceilDiv_eq_zero (P m : Nat) (hP : 0 < P)
    (h : ceilDiv m P = 0) : m = 0 := by
  by_contra hm
  have h1 : ceilDiv m P = ceilDiv (m - P) P + 1 := ceilDiv_sub P m hP (by omega)
  omega

/-! ## Slicing helpers shared by findAll and saveAllInChunks -/

theorem range_map_slices_flatten {α : Type} (P : Nat) (hP : 0 < P) :
    ∀ (n : Nat) (l : List α), ceilDiv l.length P = n →
      ((List.range n).map (fun i => (l.drop (i * P)).take P)).flatten = l := by
  intro n
  induction n with
  | zero =>
    intro l h
    have h0 : l = [] :=
      List.length_eq_zero.mp (eq_zero_of_ceilDiv_eq_zero P l.length hP h)
    subst h0
    rfl
  | succ n ih =>
    intro l h
    have hl : 1 ≤ l.length := by
      by_contra hl
      have h0 : l.length = 0 := by omega
      rw [h0, ceilDiv_zero_left P hP] at h
      omega
    rw [List.range_succ_eq_map, List.map_cons, List.map_map, List.flatten_cons]
    have hfun : ((fun i => (l.drop (i * P)).take P) ∘ Nat.succ)
        = fun i => ((l.drop P).drop (i * P)).take P := by
      funext i
      simp only [Function.comp]
      rw [List.drop_drop, Nat.succ_mul, Nat.add_comm]
    rw [hfun]
    have hlen : ceilDiv (l.drop P).length P = n := by
      rw [List.length_drop]
      have h2 := ceilDiv_sub P l.length hP hl
      omega
    rw [ih (l.drop P) hlen, Nat.zero_mul, List.drop_zero, List.take_append_drop]

theorem lchunk_eq_range_map {α : Type} (C : Nat) (hC : 0 < C) :
    ∀ (n : Nat) (l : List α), ceilDiv l.length C = n →
      lchunk C l = (List.range n).map (fun i => (l.drop (i * C)).take C) := by
  intro n
  induction n with
  | zero =>
    intro l h
    have h0 : l = [] :=
      List.length_eq_zero.mp (eq_zero_of_ceilDiv_eq_zero C l.length hC h)
    subst h0
    simp [lchunk]
  | succ n ih =>
    intro l h
    have hl : 1 ≤ l.length := by
      by_contra hl
      have h0 : l.length = 0 := by omega
      rw [h0, ceilDiv_zero_left C hC] at h
      omega
    obtain ⟨x, xs, rfl⟩ : ∃ x xs, l = x :: xs := by
      cases l with
      | nil => simp at hl
      | cons a as => exact ⟨a, as, rfl⟩
    rw [List.range_succ_eq_map, List.map_cons, List.map_map]
    have hfun : ((fun i => ((x :: xs).drop (i * C)).take C) ∘ Nat.succ)
        = fun i => (((x :: xs).drop C).drop (i * C)).take C := by
      funext i
      simp only [Function.comp]
      rw [List.drop_drop, Nat.succ_mul, Nat.add_comm]
    rw [hfun]
    have hlen : ceilDiv ((x :: xs).drop C).length C = n := by
      rw [List.length_drop]
      have h2 := ceilDiv_sub C (x :: xs).length hC hl
      omega
    rw [← ih ((x :: xs).drop C) hlen]
    rw [lchunk]
    rw [dif_neg (by omega : ¬ C = 0), Nat.zero_mul, List.drop_zero]

/-! ## issuePages helpers -/

theorem issuePages_fst (ps : List Nat) : ∀ (q : Query),
    (issuePages q ps).1
      = ps.map (fun p => ⟨p * PAGE_SIZE, some PAGE_SIZE⟩) := by
  induction ps with
  | nil => intro q; rfl
  | cons p ps ih =>
    intro q
    simp only [issuePages, List.map_cons, Query.setSkip, Query.setLimit]
    rw [ih]

theorem issuePages_snd_append (p : Nat) : ∀ (ps : List Nat) (q : Query),
    (issuePages q (ps ++ [p])).2 = ⟨p * PAGE_SIZE, some PAGE_SIZE⟩ := by
  intro ps
  induction ps with
  | nil => intro q; rfl
  | cons a as ih =>
    intro q
    simp only [List.cons_append, issuePages]
    exact ih _

/-- C1: findAll on a filter whose count reports N matching records issues
exactly ceil(N/500) page queries, the page with index i carrying
skip = i*PAGE_SIZE and limit = PAGE_SIZE, and returns the concatenation of
the page results in page-index order — exactly the N matching records;
when the count is 0 it issues no page query and returns the empty
sequence. -/
theorem findAll_paged {α : Type} (q : Query) (store : List α) :
    (findAll q store).pageRequests
      = (List.range (ceilDiv store.length PAGE_SIZE)).map
          (fun i => ⟨i * PAGE_SIZE, some PAGE_SIZE⟩)
  ∧ (findAll q store).results = store
  ∧ (store.length = 0 →
      (findAll q store).pageRequests = [] ∧ (findAll q store).results = []) := by
  have hreq : (findAll q store).pageRequests
      = (List.range (ceilDiv store.length PAGE_SIZE)).map
          (fun i => ⟨i * PAGE_SIZE, some PAGE_SIZE⟩) := by
    unfold findAll
    exact issuePages_fst _ q
  have hres : (findAll q store).results = store := by
    show ((issuePages q (List.range (ceilDiv (q.count store) PAGE_SIZE))).1.map
        (fun qq => qq.find store)).flatten = store
    rw [issuePages_fst, List.map_map]
    have hfun : ((fun qq => Query.find qq store)
          ∘ fun p => (⟨p * PAGE_SIZE, some PAGE_SIZE⟩ : Query))
        = fun i => (store.drop (i * PAGE_SIZE)).take PAGE_SIZE := by
      funext i
      rfl
    rw [hfun]
    exact range_map_slices_flatten PAGE_SIZE (by decide) _ store rfl
  refine ⟨hreq, hres, fun h0 => ⟨?_, ?_⟩⟩
  · rw [hreq, h0, ceilDiv_zero_left PAGE_SIZE (by decide)]
    rfl
  · rw [hres]
    exact List.length_eq_zero.mp h0

theorem findAll_paged_witness :
    List.length ([] : List Nat) = 0
  ∧ (findAll ⟨0, none⟩ ([] : List Nat)).pageRequests = [] :=
  ⟨rfl, ((findAll_paged ⟨0, none⟩ ([] : List Nat)).2.2 rfl).1⟩

/-- C8 counterexample: findAll does not leave the caller's filter object
unchanged.  With a single matching record and a caller filter that has
skip 0 and no limit set, the filter ends the run with limit mutated to
500 (and in general with the last page's skip), so the claimed absence of
side effects on the caller's filter is false. -/
theorem findAll_frame_cex :
    (findAll (Query.mk 0 none) [(0 : Nat)]).finalQuery ≠ Query.mk 0 none := by
  decide

/-- C8 amended: findAll issues its page requests by setting skip and limit
in place on the caller's filter (no clone is taken).  After a run with at
least one page the caller's filter is left with
skip = (pageCount - 1) * PAGE_SIZE and limit = PAGE_SIZE; the filter is
unchanged only when the reported count is 0 (no page issued).  Beyond this
query-object mutation findAll performs only the read calls. -/
theorem findAll_mutates {α : Type} (q : Query) (store : List α) :
    (store.length = 0 → (findAll q store).finalQuery = q)
  ∧ (0 < store.length →
      (findAll q store).finalQuery
        = ⟨(ceilDiv store.length PAGE_SIZE - 1) * PAGE_SIZE, some PAGE_SIZE⟩) := by
  constructor
  · intro h0
    show (issuePages q (List.range (ceilDiv (q.count store) PAGE_SIZE))).2 = q
    show (issuePages q (List.range (ceilDiv store.length PAGE_SIZE))).2 = q
    rw [h0, ceilDiv_zero_left PAGE_SIZE (by decide)]
    rfl
  · intro hpos
    show (issuePages q (List.range (ceilDiv store.length PAGE_SIZE))).2
      = ⟨(ceilDiv store.length PAGE_SIZE - 1) * PAGE_SIZE, some PAGE_SIZE⟩
    have hn : 0 < ceilDiv store.length PAGE_SIZE := by
      by_contra hn
      have h0 : ceilDiv store.length PAGE_SIZE = 0 := by omega
      have h1 := eq_zero_of_ceilDiv_eq_zero PAGE_SIZE store.length (by decide) h0
      omega
    obtain ⟨n, hn2⟩ : ∃ n, ceilDiv store.length PAGE_SIZE = n + 1 :=
      ⟨ceilDiv store.length PAGE_SIZE - 1, by omega⟩
    rw [hn2, List.range_succ, issuePages_snd_append]
    have h3 : n + 1 - 1 = n := by omega
    rw [h3]

theorem findAll_mutates_witness :
    0 < List.length [(0 : Nat)]
  ∧ (findAll ⟨7, some 9⟩ [(0 : Nat)]).finalQuery
      = ⟨(ceilDiv (List.length [(0 : Nat)]) PAGE_SIZE - 1) * PAGE_SIZE,
         some PAGE_SIZE⟩ :=
  ⟨by decide, (findAll_mutates ⟨7, some 9⟩ [(0 : Nat)]).2 (by decide)⟩

/-! ## deleteAllByQuery helpers -/

theorem removeFound_length_lt {α : Type} (q : Query) (store : List α)
    (h : (q.find store).length ≠ 0) :
    (store.take q.skip ++ store.drop (q.skip + (q.find store).length)).length
      < store.length := by
  have hc : (q.find store).length ≤ store.length - q.skip := by
    simp only [Query.find, List.length_take, List.length_drop]
    exact Nat.min_le_right _ _
  have hpos : 0 < (q.find store).length := Nat.pos_of_ne_zero h
  have hsk : q.skip ≤ store.length := by omega
  simp only [List.length_append, List.length_take, List.length_drop]
  rw [Nat.min_eq_left hsk]
  omega

theorem destroyAll_base {α : Type} (q : Query) (store : List α)
    (h : (q.find store).length = 0) :
    _destroyAll q store
      = { totalRounds := 1, deletingRounds := 0, finalStore := store,
          resolvedValue := none } := by
  rw [_destroyAll]
  rw [dif_pos h]

theorem destroyAll_step {α : Type} (q : Query) (store : List α)
    (h : (q.find store).length ≠ 0) :
    _destroyAll q store
      = { totalRounds :=
            (_destroyAll q (store.take q.skip
              ++ store.drop (q.skip + (q.find store).length))).totalRounds + 1
          deletingRounds :=
            (_destroyAll q (store.take q.skip
              ++ store.drop (q.skip + (q.find store).length))).deletingRounds + 1
          finalStore :=
            (_destroyAll q (store.take q.skip
              ++ store.drop (q.skip + (q.find store).length))).finalStore
          resolvedValue :=
            (_destroyAll q (store.take q.skip
              ++ store.drop (q.skip + (q.find store).length))).resolvedValue } := by
  rw [_destroyAll]
  rw [dif_neg h]

theorem find_zero_skip {α : Type} (store : List α) :
    Query.find ⟨0, some 500⟩ store = store.take 500 := by
  simp [Query.find]

theorem destroyAll_step_drop {α : Type} (store : List α) (h : store ≠ []) :
    _destroyAll (⟨0, some 500⟩ : Query) store
      = { totalRounds :=
            (_destroyAll (⟨0, some 500⟩ : Query) (store.drop 500)).totalRounds + 1
          deletingRounds :=
            (_destroyAll (⟨0, some 500⟩ : Query) (store.drop 500)).deletingRounds + 1
          finalStore :=
            (_destroyAll (⟨0, some 500⟩ : Query) (store.drop 500)).finalStore
          resolvedValue :=
            (_destroyAll (⟨0, some 500⟩ : Query) (store.drop 500)).resolvedValue } := by
  have hlen : 0 < store.length := by
    cases store with
    | nil => exact absurd rfl h
    | cons a as => simp
  have hfind : (Query.find ⟨0, some 500⟩ store).length ≠ 0 := by
    rw [find_zero_skip, List.length_take]
    omega
  have harg : store.take (Query.skip ⟨0, some 500⟩)
      ++ store.drop (Query.skip ⟨0, some 500⟩ + (Query.find ⟨0, some 500⟩ store).length)
      = store.drop 500 := by
    rw [find_zero_skip, List.length_take]
    show store.take 0 ++ store.drop (0 + min 500 store.length) = store.drop 500
    rw [List.take_zero, List.nil_append, Nat.zero_add]
    rcases Nat.le_total 500 store.length with h5 | h5
    · rw [Nat.min_eq_left h5]
    · rw [Nat.min_eq_right h5]
      rw [List.drop_length]
      exact (List.drop_eq_nil_iff.mpr h5).symm
  rw [destroyAll_step _ _ hfind, harg]

theorem destroyAll_zero_skip {α : Type} :
    ∀ (n : Nat) (store : List α), store.length ≤ n →
      (_destroyAll (⟨0, some 500⟩ : Query) store).deletingRounds
          = ceilDiv store.length 500
    ∧ (_destroyAll (⟨0, some 500⟩ : Query) store).totalRounds
          = ceilDiv store.length 500 + 1
    ∧ (_destroyAll (⟨0, some 500⟩ : Query) store).finalStore = [] := by
  intro n
  induction n with
  | zero =>
    intro store hs
    have h0 : store = [] := by
      cases store with
      | nil => rfl
      | cons a as => simp at hs
    subst h0
    have hfind : (Query.find ⟨0, some 500⟩ ([] : List α)).length = 0 := by
      rw [find_zero_skip]
      rfl
    rw [destroyAll_base _ _ hfind]
    rw [List.length_nil, ceilDiv_zero_left 500 (by decide)]
    exact ⟨rfl, rfl, rfl⟩
  | succ n ih =>
    intro store hs
    by_cases h0 : store = []
    · subst h0
      have hfind : (Query.find ⟨0, some 500⟩ ([] : List α)).length = 0 := by
        rw [find_zero_skip]
        rfl
      rw [destroyAll_base _ _ hfind]
      rw [List.length_nil, ceilDiv_zero_left 500 (by decide)]
      exact ⟨rfl, rfl, rfl⟩
    · have hlen : 0 < store.length := by
        cases store with
        | nil => exact absurd rfl h0
        | cons a as => simp
      rw [destroyAll_step_drop store h0]
      have hrec := ih (store.drop 500) (by rw [List.length_drop]; omega)
      have hsub : ceilDiv store.length 500
          = ceilDiv (store.length - 500) 500 + 1 :=
        ceilDiv_sub 500 store.length (by omega) (by omega)
      rw [List.length_drop] at hrec
      refine ⟨?_, ?_, ?_⟩
      · show (_destroyAll (⟨0, some 500⟩ : Query) (store.drop 500)).deletingRounds + 1
            = ceilDiv store.length 500
        rw [hrec.1]
        omega
      · show (_destroyAll (⟨0, some 500⟩ : Query) (store.drop 500)).totalRounds + 1
            = ceilDiv store.length 500 + 1
        rw [hrec.2.1]
        omega
      · show (_destroyAll (⟨0, some 500⟩ : Query) (store.drop 500)).finalStore = []
        exact hrec.2.2

/-- C2: deleteAllByQuery bounds the caller's filter (here with skip 0) to
limit 500 once and re-issues that same bounded filter every round with no
skip increment; with N matching records it performs exactly ceil(N/500)
record-deleting rounds plus one final round that deletes nothing, leaves
zero matches remaining, and for N = 0 it terminates after a single round
that deletes nothing. -/
theorem deleteAllByQuery_converges {α : Type} (q : Query) (store : List α)
    (hq : q.skip = 0) :
    (deleteAllByQuery q store).deletingRounds = ceilDiv store.length 500
  ∧ (deleteAllByQuery q store).totalRounds = ceilDiv store.length 500 + 1
  ∧ (deleteAllByQuery q store).finalStore = []
  ∧ (store = [] →
      (deleteAllByQuery q store).deletingRounds = 0
    ∧ (deleteAllByQuery q store).totalRounds = 1) := by
  have hql : q.setLimit 500 = (⟨0, some 500⟩ : Query) := by
    cases q with
    | mk s l =>
      simp only [Query.setLimit]
      simp only [Query.skip] at hq
      rw [hq]
  unfold deleteAllByQuery
  rw [hql]
  have h := destroyAll_zero_skip store.length store (Nat.le_refl _)
  refine ⟨h.1, h.2.1, h.2.2, fun h0 => ?_⟩
  subst h0
  rw [List.length_nil, ceilDiv_zero_left 500 (by decide)] at h
  exact ⟨h.1, h.2.1⟩

theorem deleteAllByQuery_converges_witness :
    (Query.mk 0 none).skip = 0
  ∧ (deleteAllByQuery ⟨0, none⟩ [true, false, true]).finalStore = [] :=
  ⟨rfl, (deleteAllByQuery_converges ⟨0, none⟩ [true, false, true] rfl).2.2.1⟩

theorem destroyAll_resolved {α : Type} :
    ∀ (n : Nat) (q : Query) (store : List α), store.length ≤ n →
      (_destroyAll q store).resolvedValue = none := by
  intro n
  induction n with
  | zero =>
    intro q store hs
    have h0 : store = [] := by
      cases store with
      | nil => rfl
      | cons a as => simp at hs
    subst h0
    have hfind : (q.find ([] : List α)).length = 0 := by
      simp [Query.find]
    rw [destroyAll_base _ _ hfind]
  | succ n ih =>
    intro q store hs
    by_cases h : (q.find store).length = 0
    · rw [destroyAll_base _ _ h]
    · rw [destroyAll_step _ _ h]
      exact ih q _ (by have := removeFound_length_lt q store h; omega)

/-- C10: deleteAllByQuery resolves with no value (the undefined of
Parse.Promise.as with no argument); the fetched or deleted records are
never returned to the caller, whatever the store and the filter. -/
theorem deleteAllByQuery_resolves_undefined {α : Type} (q : Query)
    (store : List α) :
    (deleteAllByQuery q store).resolvedValue = none := by
  unfold deleteAllByQuery
  exact destroyAll_resolved store.length _ store (Nat.le_refl _)

/-! ## saveAllInChunks helpers -/

theorem jsOr_pos (C d : Nat) (hC : C ≠ 0) : jsOr (some C) d = C := by
  cases C with
  | zero => exact absurd rfl hC
  | succ n => rfl

theorem saveLoop_log {α β : Type} (g : α → β) :
    ∀ (cs : List (List α)) (acc : List (List α)),
      saveLoop (logSave g) acc cs = (acc ++ cs, cs.map (List.map g)) := by
  intro cs
  induction cs with
  | nil =>
    intro acc
    simp [saveLoop]
  | cons c cs ih =>
    intro acc
    simp only [saveLoop, logSave, ih, List.map_cons]
    rw [List.append_assoc]
    rfl

/-- C3: saveAllInChunks partitions its input of N records into
ceil(N/C) chunks — the chunk with index i being the slice from i*C of
length at most C, so every chunk has length C except possibly the last,
and the chunks concatenate back to the input — and feeds the chunks to
the bulk-save primitive strictly sequentially (witnessed by the
state-threaded monitor logSave, whose final state lists the calls in
chunk order), returning one result batch per chunk in chunk order; an
unspecified chunk size defaults to 200. -/
theorem saveAllInChunks_chunked {α β : Type} (g : α → β) (objs : List α)
    (C : Nat) (hC : 1 ≤ C) :
    (saveAllInChunks (logSave g) [] objs (some C)).1
        = (List.range (ceilDiv objs.length C)).map
            (fun i => (objs.drop (i * C)).take C)
  ∧ ((saveAllInChunks (logSave g) [] objs (some C)).1).flatten = objs
  ∧ (saveAllInChunks (logSave g) [] objs (some C)).2
        = ((saveAllInChunks (logSave g) [] objs (some C)).1).map (List.map g)
  ∧ (∀ (T : Type) (f : T → List α → T × List β) (s : T),
        saveAllInChunks f s objs none = saveAllInChunks f s objs (some 200)) := by
  have h1 : saveAllInChunks (logSave g) [] objs (some C)
      = (lchunk C objs, (lchunk C objs).map (List.map g)) := by
    unfold saveAllInChunks
    rw [jsOr_pos C 200 (by omega), saveLoop_log]
    rw [List.nil_append]
  have h2 : lchunk C objs
      = (List.range (ceilDiv objs.length C)).map
          (fun i => (objs.drop (i * C)).take C) :=
    lchunk_eq_range_map C (by omega) _ objs rfl
  refine ⟨?_, ?_, ?_, ?_⟩
  · rw [h1]
    exact h2
  · rw [h1]
    show (lchunk C objs).flatten = objs
    rw [h2]
    exact range_map_slices_flatten C (by omega) _ objs rfl
  · rw [h1]
  · intro T f s
    rfl

theorem saveAllInChunks_chunked_witness :
    1 ≤ 2
  ∧ (saveAllInChunks (logSave (fun n : Nat => n)) [] [1, 2, 3] (some 2)).1.flatten
      = [1, 2, 3] :=
  ⟨by decide, (saveAllInChunks_chunked (fun n : Nat => n) [1, 2, 3] 2 (by decide)).2.1⟩

/-! ## Schema diff helpers -/

theorem foldl_assign {β : Type} (v : String → β) :
    ∀ (l : List String) (m : String → Option β) (x : String),
      (l.foldl (fun m f => assign m f (v f)) m) x
        = if x ∈ l then some (v x) else m x := by
  intro l
  induction l with
  | nil =>
    intro m x
    simp
  | cons a l ih =>
    intro m x
    rw [List.foldl_cons, ih]
    by_cases hx : x ∈ l
    · simp [hx]
    · by_cases hxa : x = a
      · subst hxa
        simp [hx, assign]
      · simp [hx, hxa, assign]

theorem mem_difference {γ : Type} [DecidableEq γ] (a b : List γ) (x : γ) :
    x ∈ difference a b ↔ x ∈ a ∧ x ∉ b := by
  simp [difference, List.mem_filter]

theorem mem_deletedFields {D : Type} (cn : String) (cs rs : List (String × D))
    (x : String) :
    x ∈ deletedFields cn cs rs
      ↔ x ∈ keysOf rs ∧ ¬(x ∈ keysOf cs ∨ x ∈ IGNORED_FIELDS cn) := by
  unfold deletedFields
  rw [mem_difference, List.mem_append]

theorem mem_newFields {D : Type} (cn : String) (cs rs : List (String × D))
    (x : String) :
    x ∈ newFields cn cs rs
      ↔ (x ∈ keysOf cs ∨ x ∈ IGNORED_FIELDS cn) ∧ x ∉ keysOf rs := by
  unfold newFields
  rw [mem_difference, List.mem_append]

theorem getSchemaChanges_apply {D : Type} (cn : String)
    (cs rs : List (String × D)) (x : String) :
    getSchemaChanges cn cs rs x
      = if x ∈ newFields cn cs rs
          then some ⟨List.lookup x cs, PatchDir.Insert⟩
        else if x ∈ deletedFields cn cs rs
          then some ⟨List.lookup x rs, PatchDir.Delete⟩
        else none := by
  unfold getSchemaChanges
  rw [foldl_assign (fun f => (⟨List.lookup f cs, PatchDir.Insert⟩ : PatchEntry D)),
      foldl_assign (fun f => (⟨List.lookup f rs, PatchDir.Delete⟩ : PatchEntry D))]

/-- C4: the schema patch computed by getSchemaChanges tags with a delete
operation exactly the fields in remoteFields minus (desiredFields union
ignore-list), each keeping its remote descriptor, and tags with an insert
operation exactly the fields in (desiredFields union ignore-list) minus
remoteFields, each carrying its desired descriptor; in particular, for
desired fields a, b and remote fields a, c the patch deletes c (with the
remote descriptor of c), inserts b (with the desired descriptor of b),
and leaves a untouched. -/
theorem getSchemaChanges_diff {D : Type} (cn : String)
    (cs rs : List (String × D)) (x : String) :
    (getSchemaChanges cn cs rs x = some ⟨List.lookup x rs, PatchDir.Delete⟩
       ↔ x ∈ keysOf rs ∧ ¬(x ∈ keysOf cs ∨ x ∈ IGNORED_FIELDS cn))
  ∧ (getSchemaChanges cn cs rs x = some ⟨List.lookup x cs, PatchDir.Insert⟩
       ↔ (x ∈ keysOf cs ∨ x ∈ IGNORED_FIELDS cn) ∧ x ∉ keysOf rs)
  ∧ getSchemaChanges "C" [("a", (0 : Nat)), ("b", 1)] [("a", 0), ("c", 2)] "c"
      = some ⟨some 2, PatchDir.Delete⟩
  ∧ getSchemaChanges "C" [("a", (0 : Nat)), ("b", 1)] [("a", 0), ("c", 2)] "b"
      = some ⟨some 1, PatchDir.Insert⟩
  ∧ getSchemaChanges "C" [("a", (0 : Nat)), ("b", 1)] [("a", 0), ("c", 2)] "a"
      = none := by
  refine ⟨?_, ?_, by decide, by decide, by decide⟩
  · rw [getSchemaChanges_apply]
    by_cases hn : x ∈ newFields cn cs rs
    · rw [if_pos hn]
      rw [mem_newFields] at hn
      constructor
      · intro hcontr
        simp at hcontr
      · intro hcond
        exact absurd hcond.1 (fun hmem => hn.2 hmem)
    · rw [if_neg hn]
      by_cases hd : x ∈ deletedFields cn cs rs
      · rw [if_pos hd]
        rw [mem_deletedFields] at hd
        simp [hd]
      · rw [if_neg hd]
        rw [mem_deletedFields] at hd
        constructor
        · intro hcontr
          simp at hcontr
        · intro hcond
          exact absurd hcond hd
  · rw [getSchemaChanges_apply]
    by_cases hn : x ∈ newFields cn cs rs
    · rw [if_pos hn]
      rw [mem_newFields] at hn
      simp [hn]
    · rw [if_neg hn]
      rw [mem_newFields] at hn
      by_cases hd : x ∈ deletedFields cn cs rs
      · rw [if_pos hd]
        rw [mem_deletedFields] at hd
        constructor
        · intro hcontr
          simp at hcontr
        · intro hcond
          exact absurd hcond hn
      · rw [if_neg hd]
        constructor
        · intro hcontr
          simp at hcontr
        · intro hcond
          exact absurd hcond hn

/-- C6 counterexample: the computed patch can contain an entry for an
ignore-list field.  For a non-user class whose cached remote schema lacks
the system field ACL, the patch tags ACL with an insert operation, so the
claim that the patch never contains an entry for an ignore-list field is
false. -/
theorem getSchemaChanges_ignored_cex :
    "ACL" ∈ IGNORED_FIELDS "X"
  ∧ getSchemaChanges "X" ([] : List (String × Nat)) [("objectId", 0)] "ACL"
      = some ⟨none, PatchDir.Insert⟩ := by
  exact ⟨by decide, by decide⟩

/-- C6 amended: the patch never tags an ignore-list field with a delete
operation, and an ignore-list field present in the remote schema gets no
patch entry at all; an ignore-list field absent from the remote schema is
tagged with an insert operation (carrying its desired descriptor, if
any).  The ignore-list is exactly objectId, createdAt, updatedAt, ACL for
every class other than the built-in user class _User, which additionally
includes emailVerified, authData, username, password, email. -/
theorem getSchemaChanges_ignored {D : Type} (cn : String)
    (cs rs : List (String × D)) (f : String)
    (hf : f ∈ IGNORED_FIELDS cn) :
    (∀ d, getSchemaChanges cn cs rs f ≠ some ⟨d, PatchDir.Delete⟩)
  ∧ (f ∈ keysOf rs → getSchemaChanges cn cs rs f = none)
  ∧ (f ∉ keysOf rs →
      getSchemaChanges cn cs rs f = some ⟨List.lookup f cs, PatchDir.Insert⟩)
  ∧ IGNORED_FIELDS "_User"
      = ["objectId", "createdAt", "updatedAt", "ACL", "emailVerified",
         "authData", "username", "password", "email"]
  ∧ (cn ≠ "_User" →
      IGNORED_FIELDS cn = ["objectId", "createdAt", "updatedAt", "ACL"]) := by
  have hdel : f ∉ deletedFields cn cs rs := by
    rw [mem_deletedFields]
    rintro ⟨-, hno⟩
    exact hno (Or.inr hf)
  refine ⟨?_, ?_, ?_, by decide, ?_⟩
  · intro d
    rw [getSchemaChanges_apply]
    by_cases hn : f ∈ newFields cn cs rs
    · rw [if_pos hn]
      intro hcontr
      simp at hcontr
    · rw [if_neg hn, if_neg hdel]
      intro hcontr
      simp at hcontr
  · intro hr
    rw [getSchemaChanges_apply]
    have hn : f ∉ newFields cn cs rs := by
      rw [mem_newFields]
      rintro ⟨-, hno⟩
      exact hno hr
    rw [if_neg hn, if_neg hdel]
  · intro hr
    rw [getSchemaChanges_apply]
    have hn : f ∈ newFields cn cs rs := by
      rw [mem_newFields]
      exact ⟨Or.inr hf, hr⟩
    rw [if_pos hn]
  · intro hcn
    unfold IGNORED_FIELDS
    rw [if_pos hcn]

theorem getSchemaChanges_ignored_witness :
    "ACL" ∈ IGNORED_FIELDS "Y"
  ∧ getSchemaChanges "Y" [("a", (5 : Nat))] [("a", 5), ("ACL", 7)] "ACL"
      = none :=
  ⟨by decide,
   (getSchemaChanges_ignored "Y" [("a", (5 : Nat))] [("a", 5), ("ACL", 7)] "ACL"
      (by decide)).2.1 (by decide)⟩

/-! ## Idempotence of the reconciliation (C9) -/

theorem keysOf_applyPatch_mem {D : Type} (cn : String)
    (cs rs : List (String × D)) (d0 : D) (x : String) :
    x ∈ keysOf (applyPatch cn cs rs d0)
      ↔ (x ∈ keysOf rs ∧ x ∉ deletedFields cn cs rs)
        ∨ x ∈ newFields cn cs rs := by
  unfold applyPatch keysOf
  constructor
  · intro hx
    rcases List.mem_map.mp hx with ⟨e, he, rfl⟩
    rcases List.mem_append.mp he with he1 | he2
    · rcases List.mem_filter.mp he1 with ⟨hin, hp⟩
      exact Or.inl ⟨List.mem_map.mpr ⟨e, hin, rfl⟩, of_decide_eq_true hp⟩
    · rcases List.mem_map.mp he2 with ⟨f, hfmem, hfe⟩
      rw [← hfe]
      exact Or.inr hfmem
  · intro h
    rcases h with ⟨hx, hnd⟩ | hn
    · rcases List.mem_map.mp hx with ⟨e, he, rfl⟩
      apply List.mem_map.mpr
      refine ⟨e, List.mem_append.mpr (Or.inl (List.mem_filter.mpr ⟨he, ?_⟩)), rfl⟩
      exact decide_eq_true hnd
    · apply List.mem_map.mpr
      refine ⟨(x, (List.lookup x cs).getD d0),
        List.mem_append.mpr (Or.inr (List.mem_map.mpr ⟨x, hn, rfl⟩)), rfl⟩

/-- C9: schema reconciliation is idempotent.  Applying the computed patch
to the remote schema (insert-tagged fields added, delete-tagged fields
removed — the backend effect, modelled from the spec by applyPatch) and
re-running getSchemaChanges with the identical desired schema against the
resulting remote state yields the empty patch. -/
theorem getSchemaChanges_idempotent {D : Type} (cn : String)
    (cs rs : List (String × D)) (d0 : D) (x : String) :
    getSchemaChanges cn cs (applyPatch cn cs rs d0) x = none := by
  have hsub : ∀ y, y ∈ keysOf (applyPatch cn cs rs d0)
      ↔ (y ∈ keysOf cs ∨ y ∈ IGNORED_FIELDS cn) := by
    intro y
    rw [keysOf_applyPatch_mem]
    constructor
    · rintro (⟨hy, hnd⟩ | hn)
      · rw [mem_deletedFields] at hnd
        by_contra hc
        exact hnd ⟨hy, hc⟩
      · exact ((mem_newFields cn cs rs y).mp hn).1
    · intro hy
      by_cases hr : y ∈ keysOf rs
      · refine Or.inl ⟨hr, ?_⟩
        rw [mem_deletedFields]
        rintro ⟨-, hni⟩
        exact hni hy
      · refine Or.inr ?_
        rw [mem_newFields]
        exact ⟨hy, hr⟩
  have hnew : x ∉ newFields cn cs (applyPatch cn cs rs d0) := by
    rw [mem_newFields]
    rintro ⟨hor, hnin⟩
    exact hnin ((hsub x).mpr hor)
  have hdel : x ∉ deletedFields cn cs (applyPatch cn cs rs d0) := by
    rw [mem_deletedFields]
    rintro ⟨hin, hnor⟩
    exact hnor ((hsub x).mp hin)
  rw [getSchemaChanges_apply, if_neg hnew, if_neg hdel]

/-! ## loadClass behaviour (C5, C7) -/

/-- C5 counterexample: when the create attempt fails with the class-exists
signal (code 103) and shouldUpdate is false, loadClass issues no
updateClass call at all — not even a permissions-only one — contradicting
the claim that a permissions-only updateClass is still applied. -/
theorem loadClass_no_perms_update_cex :
    (@loadClass Nat Nat (.error 103) (.ok ()) (.ok ()) false "X" [] [] 0).1
      = [SchemaCall.addClass "X" []]
  ∧ ((@loadClass Nat Nat (.error 103) (.ok ()) (.ok ()) false "X" [] [] 0).1.countP
      (fun c => isUpdateClassCall c)) = 0 :=
  ⟨rfl, rfl⟩

/-- C5 amended: when the create attempt fails with the class-exists signal
(code 103) and shouldUpdate is false, loadClass leaves the remote schema
untouched and computes no field patch, and it makes no updateClass call at
all (the permissions-only updateClass of the try block is never reached,
and the catch block does nothing in this case); the class's reconciliation
then succeeds with only the failed create call on record. -/
theorem loadClass_skipUpdate {D P : Type} (u2 u3 : Except Nat Unit)
    (cn : String) (cs rd : List (String × D)) (perms : P) :
    loadClass (.error 103) u2 u3 false cn cs rd perms
      = ([SchemaCall.addClass cn cs], .ok ()) := rfl

/-- C7: the only error caught and redirected into the update/patch path is
the backend error with the class-exists code 103; an error with any other
code from the create call (or from the permissions update inside the try
block) propagates unchanged as that class's outcome, while a 103 from the
create call with shouldUpdate true is redirected into the patching
updateClass call; and classes in a batch are independent — the trace and
outcome of the i-th class of loadClassesFromSchemas is exactly the
loadClass run of the i-th job, whatever the other jobs are. -/
theorem loadClass_error_propagation {D P : Type} :
    (∀ (e : Nat) (u2 u3 : Except Nat Unit) (su : Bool) (cn : String)
        (cs rd : List (String × D)) (p : P),
      e ≠ 103 →
        loadClass (.error e) u2 u3 su cn cs rd p
          = ([SchemaCall.addClass cn cs], .error e))
  ∧ (∀ (e : Nat) (u3 : Except Nat Unit) (su : Bool) (cn : String)
        (cs rd : List (String × D)) (p : P),
      e ≠ 103 →
        loadClass (.ok ()) (.error e) u3 su cn cs rd p
          = ([SchemaCall.addClass cn cs,
              SchemaCall.updateClass cn emptyPatch p], .error e))
  ∧ (∀ (u2 u3 : Except Nat Unit) (cn : String)
        (cs rd : List (String × D)) (p : P),
      loadClass (.error 103) u2 u3 true cn cs rd p
        = ([SchemaCall.addClass cn cs,
            SchemaCall.updateClass cn (getSchemaChanges cn cs rd) p], u3))
  ∧ (∀ (su : Bool) (jobs : List (ClassJob D P)) (i : Nat),
      (loadClassesFromSchemas su jobs)[i]?
        = (jobs[i]?).map (fun j =>
            loadClass j.createRes j.updatePermsRes j.updatePatchRes su
              j.name j.schema j.remoteData j.permissions)) := by
  refine ⟨?_, ?_, ?_, ?_⟩
  · intro e u2 u3 su cn cs rd p he
    simp [loadClass, he]
  · intro e u3 su cn cs rd p he
    simp [loadClass, he]
  · intro u2 u3 cn cs rd p
    rfl
  · intro su jobs i
    unfold loadClassesFromSchemas
    rw [List.getElem?_map]

theorem loadClass_error_propagation_witness :
    (42 : Nat) ≠ 103
  ∧ @loadClass Nat Nat (.error 42) (.ok ()) (.ok ()) true "X" [] [] 0
      = ([SchemaCall.addClass "X" []], .error 42) :=
  ⟨by decide,
   (@loadClass_error_propagation Nat Nat).1 42 (.ok ()) (.ok ()) true "X" [] [] 0
     (by decide)⟩

end ParseUtils
